import Mathlib

/-!
Verification of the edict ECS core.

Shallow embedding of the edict entity-component-system runtime and proofs
about it.  The repository snapshot contains the action encoder
(`src/action/mod.rs`), the `FilterNotRelatesTo` relation filter
(`src/relation/query/filter_not_relates_to.rs`), the typed entity handle
(`src/entity/typed.rs`), the tests (`src/test.rs`) and the `allocate`
example; the `World`, archetype and query-iteration modules are not part
of the snapshot and are modelled from the specification where needed.
Every definition modelled from the specification carries a doc comment
saying so.

Entity ids are modelled as plain naturals (the slot index); generations
are not needed by any of the properties proved here.  Machine integers
(u32/u64 indices and epochs) never overflow in the scenarios considered,
so they are modelled as `Nat`.
-/

namespace Edict

/-- Component type identity.  The tests and the example use exactly the
component types `U32`, `Str`, `Bool` and `Foo`; a type identity is one of
those four tags. -/
inductive CompTy where
  | u32T
  | strT
  | boolT
  | fooT
  deriving DecidableEq

/-- A component value, tagged with its type. -/
inductive CompVal where
  | u32V (n : Nat)
  | strV (s : String)
  | boolV (b : Bool)
  | fooV
  deriving DecidableEq

/-- The type identity of a component value. -/
def CompVal.ty : CompVal → CompTy
  | .u32V _ => .u32T
  | .strV _ => .strT
  | .boolV _ => .boolT
  | .fooV => .fooT

/-- One cell of an archetype column: a component value together with the
write epoch stamped by the last write to it. -/
structure Cell where
  ty : CompTy
  val : CompVal
  epoch : Nat
  deriving DecidableEq

/-- One row of an archetype: the entity id and its component cells. -/
structure Row where
  eid : Nat
  cells : List Cell
  deriving DecidableEq

/-- Modelled from the spec: an archetype is a columnar table of entities
sharing an exact component set; the signature is the sorted tuple of type
identities.  Rows bundle the per-entity cells of all columns. -/
structure Archetype where
  sig : List CompTy
  rows : List Row
  deriving DecidableEq

/-- Modelled from the spec: the world is the collection of archetypes (in
creation order), the reserved (allocated but not yet materialized)
entities, the id allocator and the global epoch counter.  The entity
directory is represented implicitly: an entity's location is found by
scanning archetypes in creation order, which agrees with the directory
under the uniqueness invariant. -/
structure World where
  epoch : Nat
  archetypes : List Archetype
  reserved : List Nat
  nextId : Nat
  deriving DecidableEq

/-- Errors of entity-addressed operations, as named in the spec. -/
inductive EntityError where
  | noSuchEntity
  | missingComponents
  deriving DecidableEq

/-- Decidable equality for `Except`, so that concrete runs of fallible
operations can be checked by `decide`. -/
instance {ε α : Type} [DecidableEq ε] [DecidableEq α] : DecidableEq (Except ε α) := fun x y =>
  match x, y with
  | .ok a, .ok b =>
    if h : a = b then .isTrue (by rw [h]) else .isFalse (by intro hc; cases hc; exact h rfl)
  | .ok _, .error _ => .isFalse (by intro hc; cases hc)
  | .error _, .ok _ => .isFalse (by intro hc; cases hc)
  | .error a, .error b =>
    if h : a = b then .isTrue (by rw [h]) else .isFalse (by intro hc; cases hc; exact h rfl)

/-- A total order code on type identities, used to keep signatures
sorted so that a signature is a set (order-free). -/
def CompTy.code : CompTy → Nat
  | .u32T => 0
  | .strT => 1
  | .boolT => 2
  | .fooT => 3

/-- Insert a type identity into a sorted signature. -/
def insertTy (t : CompTy) : List CompTy → List CompTy
  | [] => [t]
  | s :: ss => if t.code ≤ s.code then t :: s :: ss else s :: insertTy t ss

/-- Sort a list of type identities. -/
def sortTys : List CompTy → List CompTy
  | [] => []
  | t :: ts => insertTy t (sortTys ts)

/-- The signature of a cell list. -/
def sigOf (cells : List Cell) : List CompTy := sortTys (cells.map Cell.ty)

/-- First cell of the given type in a cell list. -/
def findCell (ty : CompTy) : List Cell → Option Cell
  | [] => none
  | c :: cs => if c.ty = ty then some c else findCell ty cs

/-- Drop every cell whose type is in `tys` (bitwise move-out of the kept
columns, as `extract_for_move` does). -/
def dropTys (tys : List CompTy) : List Cell → List Cell
  | [] => []
  | c :: cs => if c.ty ∈ tys then dropTys tys cs else c :: dropTys tys cs

/-- First row with the given entity id. -/
def findRow (e : Nat) : List Row → Option Row
  | [] => none
  | r :: rs => if r.eid = e then some r else findRow e rs

/-- First row with the given entity id, together with its index. -/
def findRowIdx (e : Nat) : List Row → Option (Row × Nat)
  | [] => none
  | r :: rs => if r.eid = e then some (r, 0) else (findRowIdx e rs).map (fun p => (p.1, p.2 + 1))

/-- Modelled from the spec: `swap_remove(row)` removes a row in O(1) by
swapping the last row into the hole. -/
def swapRemoveRows : List Row → Nat → List Row
  | [], _ => []
  | _ :: rs, 0 =>
    match rs.getLast? with
    | none => []
    | some last => last :: rs.dropLast
  | r0 :: rs, i + 1 => r0 :: swapRemoveRows rs i

/-- All rows of a list of archetypes, in visit order (archetypes in
creation order, rows in row order). -/
def allRowsArcs : List Archetype → List Row
  | [] => []
  | a :: rest => a.rows ++ allRowsArcs rest

/-- Find the row of entity `e`, scanning archetypes in creation order. -/
def getRowArcs (e : Nat) : List Archetype → Option Row
  | [] => none
  | a :: rest =>
    match findRow e a.rows with
    | some r => some r
    | none => getRowArcs e rest

/-- Remove the row of entity `e` (by `swap_remove`), returning the removed
row and the remaining archetypes. -/
def removeRowArcs (e : Nat) : List Archetype → Option (Row × List Archetype)
  | [] => none
  | a :: rest =>
    match findRowIdx e a.rows with
    | some (r, ri) => some (r, { a with rows := swapRemoveRows a.rows ri } :: rest)
    | none => (removeRowArcs e rest).map (fun p => (p.1, a :: p.2))

/-- Modelled from the spec: signature routing finds the archetype with the
given signature or creates it on demand at the end of the archetype list
(archetypes are never deleted and are visited in creation order).  The row
is appended after the existing rows. -/
def pushRowArcs (sig : List CompTy) (row : Row) : List Archetype → List Archetype
  | [] => [⟨sig, [row]⟩]
  | a :: rest =>
    if a.sig = sig then { a with rows := a.rows ++ [row] } :: rest
    else a :: pushRowArcs sig row rest

/-- Update the cells of the row of entity `e` in place (first match). -/
def updateRows (e : Nat) (f : List Cell → List Cell) : List Row → List Row
  | [] => []
  | r :: rs => if r.eid = e then ⟨r.eid, f r.cells⟩ :: rs else r :: updateRows e f rs

/-- Update the cells of entity `e` in place across all archetypes. -/
def updateArcs (e : Nat) (f : List Cell → List Cell) : List Archetype → List Archetype
  | [] => []
  | a :: rest => { a with rows := updateRows e f a.rows } :: updateArcs e f rest

/-- Replace the value of the first cell of type `ty`, stamping it with the
write epoch `ep` (the replace path of insert, and writes through `&mut`
queries). -/
def setCellVal (ty : CompTy) (v : CompVal) (ep : Nat) : List Cell → List Cell
  | [] => []
  | c :: cs => if c.ty = ty then ⟨c.ty, v, ep⟩ :: cs else c :: setCellVal ty v ep cs

/-- The fresh world. -/
def World.new : World := ⟨0, [], [], 0⟩

/-- All rows of the world in visit order. -/
def World.allRows (w : World) : List Row := allRowsArcs w.archetypes

/-- The row of entity `e`, if it is materialized in some archetype. -/
def World.getRow (w : World) (e : Nat) : Option Row := getRowArcs e w.archetypes

/-- The cell of entity `e` for component type `ty`. -/
def World.cellOf (w : World) (e : Nat) (ty : CompTy) : Option Cell :=
  match w.getRow e with
  | some r => findCell ty r.cells
  | none => none

/-- The value of entity `e`'s component of type `ty`. -/
def World.getVal (w : World) (e : Nat) (ty : CompTy) : Option CompVal :=
  (w.cellOf e ty).map Cell.val

/-- Whether entity `e` currently has a component of type `ty` (plain
boolean form used by typed entity handles). -/
def World.hasComponentB (w : World) (e : Nat) (ty : CompTy) : Bool :=
  match w.getRow e with
  | some r => (findCell ty r.cells).isSome
  | none => false

/-- Modelled from the spec: `has_component<T>(id)` fails with
`NoSuchEntity` for dead entities, reports `false` for reserved ones. -/
def World.hasComponentE (w : World) (e : Nat) (ty : CompTy) : Except EntityError Bool :=
  match w.getRow e with
  | some r => .ok ((findCell ty r.cells).isSome)
  | none => if w.reserved.contains e then .ok false else .error .noSuchEntity

/-- Collect the values of the requested component types from a row;
`none` when any is missing. -/
def collectVals (r : Row) : List CompTy → Option (List CompVal)
  | [] => some []
  | ty :: tys =>
    match findCell ty r.cells with
    | some c => (collectVals r tys).map (fun vs => c.val :: vs)
    | none => none

/-- Modelled from the spec: `query_one_mut<Q>(id)` for a tuple of `&T`
terms; yields the component values or `MissingComponents`/`NoSuchEntity`. -/
def World.queryOne (w : World) (e : Nat) (tys : List CompTy) : Except EntityError (List CompVal) :=
  match w.getRow e with
  | none => .error .noSuchEntity
  | some r =>
    match collectVals r tys with
    | some vs => .ok vs
    | none => .error .missingComponents

/-- Modelled from the spec: `spawn(bundle)` allocates a fresh slot, bumps
the epoch, routes to the archetype of the bundle's signature and pushes a
row whose cells are stamped with the current (post-bump) epoch. -/
def World.spawn (w : World) (b : List CompVal) : World × Nat :=
  let ep := w.epoch + 1
  let row : Row := ⟨w.nextId, b.map (fun v => ⟨v.ty, v, ep⟩)⟩
  ({ epoch := ep
     archetypes := pushRowArcs (sigOf row.cells) row w.archetypes
     reserved := w.reserved
     nextId := w.nextId + 1 }, w.nextId)

/-- Modelled from the spec: `allocate()` reserves a slot without placing
the entity in any archetype. -/
def World.allocate (w : World) : World × Nat :=
  ({ w with reserved := w.reserved ++ [w.nextId], nextId := w.nextId + 1 }, w.nextId)

/-- Modelled from the spec: inserting into a reserved entity materializes
it into the archetype of the inserted bundle. -/
def World.materialize (w : World) (e : Nat) (b : List CompVal) : World :=
  let ep := w.epoch + 1
  let cells := b.map (fun v => ⟨v.ty, v, ep⟩)
  { epoch := ep
    archetypes := pushRowArcs (sigOf cells) ⟨e, cells⟩ w.archetypes
    reserved := w.reserved.filter (fun x => x ≠ e)
    nextId := w.nextId }

/-- Modelled from the spec: `try_insert(id, component)`.  If the entity
already has the component's type the value is replaced in place and the
cell stamped; otherwise the entity migrates: retained cells move bitwise
(keeping their write epochs), the new cell is stamped with the current
epoch and the row is pushed into the destination archetype (created at
the end of the archetype list when its signature is new). -/
def World.tryInsert (w : World) (e : Nat) (v : CompVal) : Except EntityError World :=
  match removeRowArcs e w.archetypes with
  | some (r, arcs) =>
    match findCell v.ty r.cells with
    | some _ =>
      .ok { w with
              epoch := w.epoch + 1
              archetypes := updateArcs e (setCellVal v.ty v (w.epoch + 1)) w.archetypes }
    | none =>
      let cells := r.cells ++ [⟨v.ty, v, w.epoch + 1⟩]
      .ok { w with
              epoch := w.epoch + 1
              archetypes := pushRowArcs (sigOf cells) ⟨e, cells⟩ arcs }
  | none =>
    if w.reserved.contains e then .ok (w.materialize e [v]) else .error .noSuchEntity

/-- Modelled from the spec: `remove<T>(id)` ejects and returns the value;
the remaining cells migrate bitwise to the archetype without `T`. -/
def World.remove (w : World) (e : Nat) (ty : CompTy) : Except EntityError (CompVal × World) :=
  match removeRowArcs e w.archetypes with
  | none => .error .noSuchEntity
  | some (r, arcs) =>
    match findCell ty r.cells with
    | none => .error .missingComponents
    | some c =>
      let cells := dropTys [ty] r.cells
      .ok (c.val, { w with
                      epoch := w.epoch + 1
                      archetypes := pushRowArcs (sigOf cells) ⟨e, cells⟩ arcs })

/-- Modelled from the spec: `drop_bundle<Types>(id)` drops the components
of the bundle that are present, ignores the absent ones, and migrates the
remaining cells. -/
def World.dropBundle (w : World) (e : Nat) (tys : List CompTy) : Except EntityError World :=
  match removeRowArcs e w.archetypes with
  | none => .error .noSuchEntity
  | some (r, arcs) =>
    let cells := dropTys tys r.cells
    .ok { w with
            epoch := w.epoch + 1
            archetypes := pushRowArcs (sigOf cells) ⟨e, cells⟩ arcs }

/-- Modelled from the spec: `despawn(id)` removes the entity from its
archetype by `swap_remove`; a dead entity yields `NoSuchEntity` and the
world is untouched. -/
def World.despawn (w : World) (e : Nat) : Except EntityError World :=
  match removeRowArcs e w.archetypes with
  | none => .error .noSuchEntity
  | some (_, arcs) => .ok { w with epoch := w.epoch + 1, archetypes := arcs }

/-- A write through a `&mut` query (`query_one_mut::<&mut T>` followed by
an assignment): bumps the world epoch and stamps the written cell. -/
def World.writeComp (w : World) (e : Nat) (v : CompVal) : World :=
  match w.cellOf e v.ty with
  | some _ =>
    { w with
        epoch := w.epoch + 1
        archetypes := updateArcs e (setCellVal v.ty v (w.epoch + 1)) w.archetypes }
  | none => w

/-- Modelled from the spec: `tracks()` snapshots the current epoch. -/
def World.tracks (w : World) : Nat := w.epoch

/-- Rows yielded by a `Modified<&T>` fetch within one archetype: a row is
yielded iff its `T` cell's write epoch is strictly greater than the
tracking token. -/
def trackedRows (ty : CompTy) (token : Nat) : List Row → List (Nat × CompVal)
  | [] => []
  | r :: rest =>
    match findCell ty r.cells with
    | some c =>
      if token < c.epoch then (r.eid, c.val) :: trackedRows ty token rest
      else trackedRows ty token rest
    | none => trackedRows ty token rest

/-- The `Modified<&T>` iteration over a list of archetypes in creation order. -/
def trackedArcs (ty : CompTy) (token : Nat) : List Archetype → List (Nat × CompVal)
  | [] => []
  | a :: rest => trackedRows ty token a.rows ++ trackedArcs ty token rest

/-- Modelled from the spec: `query::<Modified<&T>>().tracked_iter(tracks)`
yields the entities whose `T` write epoch exceeds the token and advances
the token to the current world epoch.  Returns the yielded list and the
advanced token. -/
def World.trackedModified (w : World) (ty : CompTy) (token : Nat) : List (Nat × CompVal) × Nat :=
  (trackedArcs ty token w.archetypes, w.epoch)

/-- Discarding form of `despawn`, as the action encoder's
`let _ = world.despawn_with_encoder(..)` does: a dead entity is a no-op. -/
def World.despawnD (w : World) (e : Nat) : World :=
  match w.despawn e with
  | .ok w2 => w2
  | .error _ => w

/-- Discarding form of `drop_erased_with_encoder`: removes the component,
ignoring the error for dead entities or missing components. -/
def World.dropErasedD (w : World) (e : Nat) (ty : CompTy) : World :=
  match w.remove e ty with
  | .ok p => p.2
  | .error _ => w

/-- Discarding form of `try_insert`. -/
def World.insertD (w : World) (e : Nat) (v : CompVal) : World :=
  match w.tryInsert e v with
  | .ok w2 => w2
  | .error _ => w

/-- Discarding form of `try_insert_bundle_with_encoder`: inserts every
component of the builder; a reserved entity is materialized, a dead one
is a no-op. -/
def World.tryInsertBundleD (w : World) (e : Nat) (b : List CompVal) : World :=
  match w.getRow e with
  | some _ => b.foldl (fun acc v => acc.insertD e v) w
  | none => if w.reserved.contains e then w.materialize e b else w

mutual

/-- A recorded action, mirroring `enum Action` in `src/action/mod.rs`:
`Remove(entity, type)`, `Despawn(entity)`, `Insert(entity, builder)` and
`Fun(closure)`.  The closure of `Fun` is modelled as a world
transformation together with the list of actions it records into the
encoder it receives (the `&mut ActionEncoder` argument); the recorded
list is an `ActList` so that the whole value stays inductive.  `spawnA`
models the encoder's `spawn` method used by the allocate example (that
method is part of the repository but not of the snapshot; modelled from
the spec's `ActionEncoder: new, spawn, insert, ...`). -/
inductive Action where
  | remove (e : Nat) (ty : CompTy)
  | despawn (e : Nat)
  | insert (e : Nat) (b : List CompVal)
  | spawnA (b : List CompVal)
  | funA (tf : World → World) (recs : ActList)

/-- A list of actions, mutually inductive with `Action` so that structural
recursion over recorded sub-actions is available. -/
inductive ActList where
  | nil
  | cons (head : Action) (tail : ActList)

end

/-- Convert an `ActList` to a plain list. -/
def ActList.toList : ActList → List Action
  | .nil => []
  | .cons a t => a :: t.toList

mutual

/-- Size of an action: 1 plus the total size of the actions its closure
records.  Used as exact fuel for the encoder's drain loop. -/
def Action.size : Action → Nat
  | .remove _ _ => 1
  | .despawn _ => 1
  | .insert _ _ => 1
  | .spawnA _ => 1
  | .funA _ recs => 1 + recs.sizeL

/-- Total size of an `ActList`. -/
def ActList.sizeL : ActList → Nat
  | .nil => 0
  | .cons a t => a.size + t.sizeL

end

/-- Total size of a list of actions. -/
def sizeActs : List Action → Nat
  | [] => 0
  | a :: rest => a.size + sizeActs rest

/-- Execute a single popped action on the world, as the `match action`
arm of `ActionEncoder::execute` does; returns the new world and the
actions the execution recorded onto the back of the deque. -/
def applyAct (w : World) : Action → World × List Action
  | .remove e ty => (w.dropErasedD e ty, [])
  | .despawn e => (w.despawnD e, [])
  | .insert e b => (w.tryInsertBundleD e b, [])
  | .spawnA b => ((w.spawn b).1, [])
  | .funA tf recs => (tf w, recs.toList)

/-- The drain loop of `ActionEncoder::execute`: pop an action from the
front of the deque, execute it, append what it recorded to the back, and
repeat until the deque is empty.  The fuel argument is exact: each step
consumes one unit and `sizeActs` of the deque drops by exactly one, so
`sizeActs dq` units drain the deque completely.  Returns the final world
and the trace of executed actions in execution order. -/
def execLoopF : Nat → World → List Action → World × List Action
  | 0, w, _ => (w, [])
  | _ + 1, w, [] => (w, [])
  | n + 1, w, a :: rest =>
    let p := applyAct w a
    let q := execLoopF n p.1 (rest ++ p.2)
    (q.1, a :: q.2)

/-- The drain loop with its exact fuel. -/
def execLoop (w : World) (dq : List Action) : World × List Action :=
  execLoopF (sizeActs dq) w dq

/-- Result of `ActionEncoder::execute`: the world, the encoder contents
after the call, the returned boolean, and the trace of executed actions. -/
structure ExecResult where
  world : World
  encoder : List Action
  ret : Bool
  trace : List Action

/-- The function `ActionEncoder::execute` from `src/action/mod.rs`: returns `false`
immediately when the encoder is empty, otherwise drains the deque
front-to-back and returns `true`. -/
def executeEnc (w : World) (enc : List Action) : ExecResult :=
  if enc.isEmpty then ⟨w, enc, false, []⟩
  else ⟨(execLoop w enc).1, [], true, (execLoop w enc).2⟩

/-- One pass of the specified two-buffer scheme: drain the primary buffer
front-to-back, collecting the actions recorded during execution into a
secondary buffer in recording order.  Returns the world, the secondary
buffer and the trace. -/
def drainOnce (w : World) : List Action → World × List Action × List Action
  | [] => (w, [], [])
  | a :: rest =>
    let p := applyAct w a
    let q := drainOnce p.1 rest
    (q.1, p.2 ++ q.2.1, a :: q.2.2)

/-- The specified execution scheme (spec section 4.5): drain the primary
buffer while collecting intermediate actions in a secondary buffer, then
append the secondary buffer and repeat.  The fuel bounds the number of
rounds; `sizeActs` of the primary buffer always suffices. -/
def execSpecF : Nat → World → List Action → World × List Action
  | 0, w, _ => (w, [])
  | _ + 1, w, [] => (w, [])
  | n + 1, w, p =>
    let q := drainOnce w p
    let q2 := execSpecF n q.1 q.2.1
    (q2.1, q.2.2 ++ q2.2)

/-- The specified scheme with sufficient fuel. -/
def execSpec (w : World) (p : List Action) : World × List Action :=
  execSpecF (sizeActs p) w p

/-- A system as the scheduler sees it: from (read access to) the world it
produces the side effect of its lock-free allocations and the actions it
records into its encoder. -/
def SystemFn : Type := World → World × List Action

/-- Modelled from the spec: the sequential scheduler runs systems in
insertion order; after each system (stage) the recorded actions are
applied to the world and the epoch is bumped. -/
def runSystem (w : World) (s : SystemFn) : World :=
  let p := s w
  let w2 := (executeEnc p.1 p.2).world
  { w2 with epoch := w2.epoch + 1 }

/-- Modelled from the spec: `Scheduler::run_sequential`. -/
def runSequential (w : World) (systems : List SystemFn) : World :=
  systems.foldl runSystem w

/-- The first system of the allocate example (`examples/allocate.rs`): it
allocates an entity through the lock-free allocator and records
`encoder.insert(entity, Foo)`. -/
def allocateSystem : SystemFn := fun w =>
  let p := w.allocate
  (p.1, [Action.insert p.2 [CompVal.fooV]])

/-- The second system of the allocate example: records
`encoder.spawn((Foo,))`. -/
def spawnSystem : SystemFn := fun _w => (_w, [Action.spawnA [CompVal.fooV]])

/-- The number of entities a `&Foo` query yields: entities that carry a
`Foo` component (reserved entities are not yielded by `&Foo`). -/
def World.fooCount (w : World) : Nat :=
  (w.allRows.filter (fun r => (findCell CompTy.fooT r.cells).isSome)).length

/-- The method `Entity::pin::<T>` from `src/entity/typed.rs`: asserts that the entity
has the component (panicking otherwise, modelled as `none`), performs no
mutation of the world, and returns a handle to the same entity. -/
def pinEntity (w : World) (e : Nat) (ty : CompTy) : Option (World × Nat) :=
  if w.hasComponentB e ty then some (w, e) else none

end Edict

namespace FilterNotRelatesToModel

/-- One origin entry of a relation origin component; `target` is the
entity the relation points at. -/
structure Origin where
  target : Nat
  deriving DecidableEq

/-- The `OriginComponent<R>` stored on relation origins: the list of
origin entries. -/
structure OriginComponent where
  origins : List Origin
  deriving DecidableEq

/-- The part of an archetype the `FilterNotRelatesTo<R>` term inspects:
`none` when the archetype does not carry `OriginComponent<R>`, otherwise
the column of origin components (one per row). -/
structure Arch where
  originCol : Option (List OriginComponent)
  deriving DecidableEq

/-- The method `FilterNotRelatesTo::skip_archetype` from
`src/relation/query/filter_not_relates_to.rs` lines 117-119:
`!archetype.contains_id(TypeId::of::<OriginComponent<R>>())`.
Returning `true` means the archetype is skipped. -/
def skipArchetype (arch : Arch) : Bool :=
  !arch.originCol.isSome

/-- The method `FetchFilterNotRelatesTo::skip_item`, lines 53-64: the `NotRelates`
fetch never skips; the `Relates` fetch skips the row iff all of its
origins have a target different from the filter's target. -/
def skipItem (target : Nat) (arch : Arch) (idx : Nat) : Bool :=
  match arch.originCol with
  | none => false
  | some col =>
    match col.get? idx with
    | none => false
    | some oc => oc.origins.all (fun o => o.target ≠ target)

/-- Whether the term lets row `idx` of the archetype through: the
iteration protocol visits an archetype unless `skip_archetype` rejects it
and yields a row unless `skip_item` rejects it. -/
def codeYields (target : Nat) (arch : Arch) (idx : Nat) : Bool :=
  !skipArchetype arch && !skipItem target arch idx

/-- The claim's (and the type's own doc comment's) intended behavior:
an entity without the origin component is never skipped, and an origin
entity is skipped exactly when some origin entry targets the given
target. -/
def claimYields (target : Nat) (arch : Arch) (idx : Nat) : Bool :=
  match arch.originCol with
  | none => true
  | some col =>
    match col.get? idx with
    | none => true
    | some oc => !oc.origins.any (fun o => o.target = target)

end FilterNotRelatesToModel

namespace Edict

/-- Entity ids are unique across all rows of the world (the spec's
invariant that an entity appears in at most one archetype). -/
def eidNodupA (arcs : List Archetype) : Prop :=
  ((allRowsArcs arcs).map Row.eid).Nodup

/-- Entity-id uniqueness invariant of a world. -/
def World.eidNodup (w : World) : Prop := eidNodupA w.archetypes

/-- Every write epoch stored in the world is bounded by the world epoch
(the spec's epoch-validity invariant). -/
def World.epochsLe (w : World) : Prop :=
  ∀ r ∈ w.allRows, ∀ c ∈ r.cells, c.epoch ≤ w.epoch

/-- Concrete world used by witnesses: the world of the `version_test`
scenario right after `spawn((U32(42), Str("qwe")))`. -/
def wWitness : World := (World.new.spawn [CompVal.u32V 42, CompVal.strV "qwe"]).1

/-- Concrete world of the `version_insert_test` scenario right before
`try_insert(&e1, Bool(true))`: two entities spawned, both `U32` cells
rewritten through `&mut` queries. -/
def wInsertTest : World :=
  ((((World.new.spawn [CompVal.u32V 42, CompVal.strV "qwe"]).1.spawn
      [CompVal.u32V 23, CompVal.strV "rty"]).1).writeComp 0
    (CompVal.u32V 50)).writeComp 1 (CompVal.u32V 100)

/-- The row of entity 0 in `wInsertTest`. -/
def rInsertTest : Row :=
  ⟨0, [⟨CompTy.u32T, CompVal.u32V 50, 3⟩, ⟨CompTy.strT, CompVal.strV "qwe", 1⟩]⟩

theorem findCell_some {ty : CompTy} {cs : List Cell} {c : Cell}
    (h : findCell ty cs = some c) : c ∈ cs ∧ c.ty = ty := by
  induction cs with
  | nil => simp [findCell] at h
  | cons c0 cs ih =>
    by_cases h0 : c0.ty = ty
    · simp [findCell, h0] at h
      subst h
      exact ⟨List.mem_cons_self _ _, h0⟩
    · simp [findCell, h0] at h
      rcases ih h with ⟨hm, hty⟩
      exact ⟨List.mem_cons_of_mem _ hm, hty⟩

theorem findCell_none_iff {ty : CompTy} {cs : List Cell} :
    findCell ty cs = none ↔ ∀ c ∈ cs, c.ty ≠ ty := by
  induction cs with
  | nil => simp [findCell]
  | cons c0 cs ih =>
    by_cases h0 : c0.ty = ty
    · simp [findCell, h0]
    · simp [findCell, h0, ih]

theorem findCell_append {ty : CompTy} {cs ds : List Cell} :
    findCell ty (cs ++ ds) =
      match findCell ty cs with
      | some c => some c
      | none => findCell ty ds := by
  induction cs with
  | nil => simp [findCell]
  | cons c0 cs ih =>
    by_cases h0 : c0.ty = ty
    · simp [findCell, h0]
    · simpa [findCell, h0] using ih

theorem findCell_dropTys_mem {ty : CompTy} {tys : List CompTy} {cs : List Cell}
    (h : ty ∈ tys) : findCell ty (dropTys tys cs) = none := by
  induction cs with
  | nil => simp [dropTys, findCell]
  | cons c0 cs ih =>
    by_cases h0 : c0.ty ∈ tys
    · simpa [dropTys, h0] using ih
    · have : c0.ty ≠ ty := fun hc => h0 (hc ▸ h)
      simpa [dropTys, h0, findCell, this] using ih

theorem findCell_dropTys_not_mem {ty : CompTy} {tys : List CompTy} {cs : List Cell}
    (h : ty ∉ tys) : findCell ty (dropTys tys cs) = findCell ty cs := by
  induction cs with
  | nil => simp [dropTys]
  | cons c0 cs ih =>
    by_cases h0 : c0.ty ∈ tys
    · have : c0.ty ≠ ty := fun hc => h (hc ▸ h0)
      simpa [dropTys, h0, findCell, this] using ih
    · by_cases h1 : c0.ty = ty
      · simp [dropTys, h0, findCell, h1, h]
      · simpa [dropTys, h0, findCell, h1] using ih

theorem findCell_setCellVal_self {ty : CompTy} {v : CompVal} {ep : Nat} {cs : List Cell}
    {c : Cell} (h : findCell ty cs = some c) :
    findCell ty (setCellVal ty v ep cs) = some ⟨ty, v, ep⟩ := by
  induction cs with
  | nil => simp [findCell] at h
  | cons c0 cs ih =>
    by_cases h0 : c0.ty = ty
    · subst h0
      simp [setCellVal, findCell]
    · simp [findCell, h0] at h
      simpa [setCellVal, h0, findCell] using ih h

theorem findCell_setCellVal_other {ty ty2 : CompTy} {v : CompVal} {ep : Nat}
    {cs : List Cell} (h : ty2 ≠ ty) :
    findCell ty2 (setCellVal ty v ep cs) = findCell ty2 cs := by
  induction cs with
  | nil => simp [setCellVal]
  | cons c0 cs ih =>
    by_cases h0 : c0.ty = ty
    · subst h0
      simp [setCellVal, findCell, Ne.symm h, ih]
    · by_cases h1 : c0.ty = ty2
      · simp [setCellVal, h0, findCell, h1, h]
      · simpa [setCellVal, h0, findCell, h1] using ih

theorem findCell_spawn_cells {b : List CompVal} {ep : Nat} {v : CompVal}
    (hnd : (b.map CompVal.ty).Nodup) (hv : v ∈ b) :
    findCell v.ty (b.map (fun x => (⟨x.ty, x, ep⟩ : Cell))) = some ⟨v.ty, v, ep⟩ := by
  induction b with
  | nil => simp at hv
  | cons v0 b ih =>
    simp only [List.map_cons, List.nodup_cons] at hnd
    rcases List.mem_cons.mp hv with h | h
    · subst h
      simp [findCell]
    · have hne : v0.ty ≠ v.ty := by
        intro hc
        exact hnd.1 (hc ▸ List.mem_map_of_mem CompVal.ty h)
      simpa [findCell, hne] using ih hnd.2 h

theorem findRow_some {e : Nat} {rs : List Row} {r : Row}
    (h : findRow e rs = some r) : r ∈ rs ∧ r.eid = e := by
  induction rs with
  | nil => simp [findRow] at h
  | cons r0 rs ih =>
    by_cases h0 : r0.eid = e
    · simp [findRow, h0] at h
      subst h
      exact ⟨List.mem_cons_self _ _, h0⟩
    · simp [findRow, h0] at h
      rcases ih h with ⟨hm, he⟩
      exact ⟨List.mem_cons_of_mem _ hm, he⟩

theorem findRow_none_iff {e : Nat} {rs : List Row} :
    findRow e rs = none ↔ ∀ r ∈ rs, r.eid ≠ e := by
  induction rs with
  | nil => simp [findRow]
  | cons r0 rs ih =>
    by_cases h0 : r0.eid = e
    · simp [findRow, h0]
    · simp [findRow, h0, ih]

theorem findRowIdx_fst {e : Nat} {rs : List Row} :
    (findRowIdx e rs).map Prod.fst = findRow e rs := by
  induction rs with
  | nil => simp [findRowIdx, findRow]
  | cons r0 rs ih =>
    by_cases h0 : r0.eid = e
    · simp [findRowIdx, findRow, h0]
    · rw [findRowIdx, findRow, if_neg h0, if_neg h0, ← ih]
      cases findRowIdx e rs <;> simp

theorem findRowIdx_get {e : Nat} {rs : List Row} {r : Row} {ri : Nat}
    (h : findRowIdx e rs = some (r, ri)) : rs[ri]? = some r ∧ r.eid = e := by
  induction rs generalizing ri with
  | nil => simp [findRowIdx] at h
  | cons r0 rs ih =>
    by_cases h0 : r0.eid = e
    · simp [findRowIdx, h0] at h
      rcases h with ⟨h1, h2⟩
      subst h1; subst h2
      exact ⟨by simp, h0⟩
    · simp [findRowIdx, h0] at h
      rcases h with ⟨p, i, hfind, hpr, hir⟩
      subst hpr; subst hir
      rcases ih hfind with ⟨hg, he⟩
      simpa [hg] using he

theorem getLast_cons_perm {rs : List Row} {l : Row}
    (h : rs.getLast? = some l) : rs.Perm (l :: rs.dropLast) := by
  induction rs with
  | nil => simp at h
  | cons r0 rs ih =>
    cases rs with
    | nil =>
      simp [List.getLast?] at h
      subst h
      simp
    | cons r1 rs2 =>
      have h2 : (r1 :: rs2).getLast? = some l := by
        rwa [List.getLast?_cons_cons] at h
      have step := (ih h2).cons r0
      have swap : List.Perm (r0 :: l :: (r1 :: rs2).dropLast) (l :: r0 :: (r1 :: rs2).dropLast) :=
        List.Perm.swap l r0 _
      have : (r0 :: r1 :: rs2).dropLast = r0 :: (r1 :: rs2).dropLast := by
        simp [List.dropLast]
      rw [this]
      exact step.trans swap

theorem swapRemove_perm {rs : List Row} {r : Row} {ri : Nat}
    (h : rs[ri]? = some r) : rs.Perm (r :: swapRemoveRows rs ri) := by
  induction rs generalizing ri with
  | nil => simp at h
  | cons r0 rs ih =>
    cases ri with
    | zero =>
      simp at h
      subst h
      cases hl : rs.getLast? with
      | none =>
        have : rs = [] := by
          cases rs with
          | nil => rfl
          | cons x xs => simp [List.getLast?_eq_getLast] at hl
        subst this
        simp [swapRemoveRows, hl]
      | some l =>
        have := (getLast_cons_perm hl).cons r0
        simpa [swapRemoveRows, hl] using this
    | succ i =>
      simp at h
      have step := (ih h).cons r0
      have swap : List.Perm (r0 :: r :: swapRemoveRows rs i) (r :: r0 :: swapRemoveRows rs i) :=
        List.Perm.swap r r0 _
      simpa [swapRemoveRows] using step.trans swap


theorem getRowArcs_some {e : Nat} {arcs : List Archetype} {r : Row}
    (h : getRowArcs e arcs = some r) : r ∈ allRowsArcs arcs ∧ r.eid = e := by
  induction arcs with
  | nil => simp [getRowArcs] at h
  | cons a rest ih =>
    rw [getRowArcs] at h
    cases hf : findRow e a.rows with
    | some r2 =>
      rw [hf] at h
      cases h
      rcases findRow_some hf with ⟨hm, he⟩
      exact ⟨by simp [allRowsArcs, hm], he⟩
    | none =>
      rw [hf] at h
      rcases ih h with ⟨hm, he⟩
      exact ⟨by simp [allRowsArcs, hm], he⟩

theorem getRowArcs_none_iff {e : Nat} {arcs : List Archetype} :
    getRowArcs e arcs = none ↔ ∀ r ∈ allRowsArcs arcs, r.eid ≠ e := by
  induction arcs with
  | nil => simp [getRowArcs, allRowsArcs]
  | cons a rest ih =>
    rw [getRowArcs]
    cases hf : findRow e a.rows with
    | some r2 =>
      simp only []
      constructor
      · intro h; cases h
      · intro h
        rcases findRow_some hf with ⟨hm, he⟩
        exact absurd he (h r2 (by simp [allRowsArcs, hm]))
    | none =>
      simp only []
      rw [ih]
      constructor
      · intro h r hm
        rcases List.mem_append.mp (by simpa [allRowsArcs] using hm) with hra | hrr
        · exact (findRow_none_iff.mp hf) r hra
        · exact h r hrr
      · intro h r hm
        exact h r (by simp [allRowsArcs, hm])

theorem getRowArcs_of_mem {e : Nat} {arcs : List Archetype} {r : Row}
    (hnd : eidNodupA arcs) (hm : r ∈ allRowsArcs arcs) (he : r.eid = e) :
    getRowArcs e arcs = some r := by
  cases hg : getRowArcs e arcs with
  | none =>
    exact absurd he (getRowArcs_none_iff.mp hg r hm)
  | some r2 =>
    rcases getRowArcs_some hg with ⟨hm2, he2⟩
    have : r2 = r :=
      List.inj_on_of_nodup_map hnd hm2 hm (by rw [he2, he])
    rw [this]

theorem getRowArcs_eq_removeRow_fst {e : Nat} {arcs : List Archetype} :
    getRowArcs e arcs = (removeRowArcs e arcs).map Prod.fst := by
  induction arcs with
  | nil => simp [getRowArcs, removeRowArcs]
  | cons a rest ih =>
    rw [getRowArcs, removeRowArcs]
    cases hf : findRowIdx e a.rows with
    | some p =>
      obtain ⟨r, ri⟩ := p
      have hfr : findRow e a.rows = some r := by
        rw [← findRowIdx_fst, hf]; rfl
      rw [hfr]; rfl
    | none =>
      have hfr : findRow e a.rows = none := by
        rw [← findRowIdx_fst, hf]; rfl
      rw [hfr, ih]
      cases removeRowArcs e rest <;> simp

theorem removeRowArcs_perm {e : Nat} {arcs arcs2 : List Archetype} {r : Row}
    (h : removeRowArcs e arcs = some (r, arcs2)) :
    (allRowsArcs arcs).Perm (r :: allRowsArcs arcs2) ∧ r.eid = e := by
  induction arcs generalizing arcs2 with
  | nil => simp [removeRowArcs] at h
  | cons a rest ih =>
    rw [removeRowArcs] at h
    cases hf : findRowIdx e a.rows with
    | some p =>
      obtain ⟨r2, ri⟩ := p
      rw [hf] at h
      cases h
      rcases findRowIdx_get hf with ⟨hg, he⟩
      refine ⟨?_, he⟩
      simpa [allRowsArcs] using (swapRemove_perm hg).append_right (allRowsArcs rest)
    | none =>
      rw [hf] at h
      cases hrm : removeRowArcs e rest with
      | none => rw [hrm] at h; cases h
      | some q =>
        obtain ⟨r2, rest2⟩ := q
        rw [hrm] at h
        cases h
        rcases ih hrm with ⟨hperm, he⟩
        refine ⟨?_, he⟩
        simp only [allRowsArcs]
        exact (hperm.append_left _).trans List.perm_middle

theorem pushRowArcs_perm {sig : List CompTy} {row : Row} {arcs : List Archetype} :
    (allRowsArcs (pushRowArcs sig row arcs)).Perm (row :: allRowsArcs arcs) := by
  induction arcs with
  | nil => simp [pushRowArcs, allRowsArcs]
  | cons a rest ih =>
    rw [pushRowArcs]
    by_cases hs : a.sig = sig
    · rw [if_pos hs]
      simp only [allRowsArcs]
      rw [List.append_assoc]
      exact List.perm_middle
    · rw [if_neg hs]
      simp only [allRowsArcs]
      exact (ih.append_left _).trans List.perm_middle

theorem pushRowArcs_fresh (sig : List CompTy) (row : Row) {arcs : List Archetype}
    (h : ∀ a ∈ arcs, a.sig ≠ sig) :
    pushRowArcs sig row arcs = arcs ++ [⟨sig, [row]⟩] := by
  induction arcs with
  | nil => simp [pushRowArcs]
  | cons a rest ih =>
    rw [pushRowArcs, if_neg (h a (by simp))]
    rw [ih (fun a2 hm => h a2 (by simp [hm]))]
    simp


theorem updateRows_of_none {e : Nat} {f : List Cell → List Cell} {rs : List Row}
    (h : findRow e rs = none) : updateRows e f rs = rs := by
  induction rs with
  | nil => simp [updateRows]
  | cons r0 rs ih =>
    rw [findRow] at h
    by_cases h0 : r0.eid = e
    · rw [if_pos h0] at h; cases h
    · rw [if_neg h0] at h
      rw [updateRows, if_neg h0, ih h]

theorem findRow_updateRows_self {e : Nat} {f : List Cell → List Cell} {rs : List Row} :
    findRow e (updateRows e f rs) =
      (findRow e rs).map (fun r => (⟨r.eid, f r.cells⟩ : Row)) := by
  induction rs with
  | nil => simp [updateRows, findRow]
  | cons r0 rs ih =>
    by_cases h0 : r0.eid = e
    · simp [updateRows, findRow, h0]
    · simp [updateRows, findRow, h0, ih]

theorem findRow_updateRows_other {e e2 : Nat} {f : List Cell → List Cell} {rs : List Row}
    (h : e2 ≠ e) :
    findRow e2 (updateRows e f rs) = findRow e2 rs := by
  induction rs with
  | nil => simp [updateRows]
  | cons r0 rs ih =>
    by_cases h0 : r0.eid = e
    · simp [updateRows, findRow, h0, Ne.symm h]
    · by_cases h1 : r0.eid = e2
      · simp [updateRows, findRow, h0, h1, h]
      · simp [updateRows, findRow, h0, h1, ih]

theorem getRowArcs_updateArcs_self {e : Nat} {f : List Cell → List Cell}
    {arcs : List Archetype} :
    getRowArcs e (updateArcs e f arcs) =
      (getRowArcs e arcs).map (fun r => (⟨r.eid, f r.cells⟩ : Row)) := by
  induction arcs with
  | nil => simp [updateArcs, getRowArcs]
  | cons a rest ih =>
    rw [updateArcs, getRowArcs, getRowArcs, findRow_updateRows_self]
    cases findRow e a.rows with
    | some r => rfl
    | none => simpa using ih

theorem getRowArcs_updateArcs_other {e e2 : Nat} {f : List Cell → List Cell}
    {arcs : List Archetype} (h : e2 ≠ e) :
    getRowArcs e2 (updateArcs e f arcs) = getRowArcs e2 arcs := by
  induction arcs with
  | nil => simp [updateArcs]
  | cons a rest ih =>
    rw [updateArcs, getRowArcs, getRowArcs, findRow_updateRows_other h]
    cases findRow e2 a.rows with
    | some r => rfl
    | none => simpa using ih

theorem eids_updateRows {e : Nat} {f : List Cell → List Cell} {rs : List Row} :
    (updateRows e f rs).map Row.eid = rs.map Row.eid := by
  induction rs with
  | nil => simp [updateRows]
  | cons r0 rs ih =>
    by_cases h0 : r0.eid = e
    · simp [updateRows, h0]
    · simp [updateRows, h0, ih]

theorem eids_updateArcs {e : Nat} {f : List Cell → List Cell} {arcs : List Archetype} :
    (allRowsArcs (updateArcs e f arcs)).map Row.eid = (allRowsArcs arcs).map Row.eid := by
  induction arcs with
  | nil => simp [updateArcs]
  | cons a rest ih =>
    simp [updateArcs, allRowsArcs, eids_updateRows, ih]

theorem migrate_facts {e : Nat} {arcs0 arcs : List Archetype} {r : Row}
    (sig : List CompTy) (cells : List Cell)
    (hnd : eidNodupA arcs0)
    (hrem : removeRowArcs e arcs0 = some (r, arcs)) :
    getRowArcs e (pushRowArcs sig ⟨e, cells⟩ arcs) = some ⟨e, cells⟩
    ∧ (∀ e2, e2 ≠ e → getRowArcs e2 (pushRowArcs sig ⟨e, cells⟩ arcs) = getRowArcs e2 arcs0)
    ∧ eidNodupA (pushRowArcs sig ⟨e, cells⟩ arcs) := by
  rcases removeRowArcs_perm hrem with ⟨hperm0, hre⟩
  have hperm2 : (allRowsArcs (pushRowArcs sig ⟨e, cells⟩ arcs)).Perm
      ((⟨e, cells⟩ : Row) :: allRowsArcs arcs) := pushRowArcs_perm
  have heid0 : ((allRowsArcs arcs0).map Row.eid).Perm
      (e :: (allRowsArcs arcs).map Row.eid) := by
    have := hperm0.map Row.eid
    simpa [hre] using this
  have heid2 : ((allRowsArcs (pushRowArcs sig ⟨e, cells⟩ arcs)).map Row.eid).Perm
      (e :: (allRowsArcs arcs).map Row.eid) := by
    simpa using hperm2.map Row.eid
  have hnd2 : eidNodupA (pushRowArcs sig ⟨e, cells⟩ arcs) := by
    unfold eidNodupA
    rw [heid2.nodup_iff, ← heid0.nodup_iff]
    exact hnd
  refine ⟨?_, ?_, hnd2⟩
  · exact getRowArcs_of_mem hnd2 (hperm2.mem_iff.mpr (List.mem_cons_self _ _)) rfl
  · intro e2 hne
    cases hg : getRowArcs e2 arcs0 with
    | some r2 =>
      rcases getRowArcs_some hg with ⟨hm2, he2⟩
      have hr2r : r2 ≠ r := by
        intro hc
        rw [hc, hre] at he2
        exact hne he2.symm
      have hm2arcs : r2 ∈ allRowsArcs arcs := by
        rcases List.mem_cons.mp (hperm0.mem_iff.mp hm2) with hc | hc
        · exact absurd hc hr2r
        · exact hc
      exact getRowArcs_of_mem hnd2
        (hperm2.mem_iff.mpr (List.mem_cons_of_mem _ hm2arcs)) he2
    | none =>
      rw [getRowArcs_none_iff]
      intro r2 hm2
      rcases List.mem_cons.mp (hperm2.mem_iff.mp hm2) with hc | hc
      · rw [hc]
        exact fun hcc => hne hcc.symm
      · have : r2 ∈ allRowsArcs arcs0 :=
          hperm0.mem_iff.mpr (List.mem_cons_of_mem _ hc)
        exact getRowArcs_none_iff.mp hg r2 this

theorem mem_trackedRows {ty : CompTy} {tok : Nat} {rs : List Row} {p : Nat × CompVal} :
    p ∈ trackedRows ty tok rs ↔
      ∃ r ∈ rs, r.eid = p.1 ∧ ∃ c, findCell ty r.cells = some c ∧ tok < c.epoch ∧ c.val = p.2 := by
  induction rs with
  | nil => simp [trackedRows]
  | cons r0 rs ih =>
    cases hf : findCell ty r0.cells with
    | some c =>
      by_cases hep : tok < c.epoch
      · simp only [trackedRows, hf, if_pos hep]
        constructor
        · intro hm
          rcases List.mem_cons.mp hm with hc | hc
          · exact ⟨r0, by simp, by rw [hc], c, hf, hep, by rw [hc]⟩
          · rcases ih.mp hc with ⟨r2, hm2, he2, c2, hf2, hep2, hv2⟩
            exact ⟨r2, by simp [hm2], he2, c2, hf2, hep2, hv2⟩
        · rintro ⟨r2, hm2, he2, c2, hf2, hep2, hv2⟩
          rcases List.mem_cons.mp hm2 with hc | hc
          · subst hc
            rw [hf] at hf2
            cases hf2
            have hp : p = (r2.eid, c.val) := by
              rw [he2, hv2]
            rw [hp]
            exact List.mem_cons_self _ _
          · exact List.mem_cons_of_mem _ (ih.mpr ⟨r2, hc, he2, c2, hf2, hep2, hv2⟩)
      · simp only [trackedRows, hf, if_neg hep]
        rw [ih]
        constructor
        · rintro ⟨r2, hm2, rest⟩
          exact ⟨r2, by simp [hm2], rest⟩
        · rintro ⟨r2, hm2, he2, c2, hf2, hep2, hv2⟩
          rcases List.mem_cons.mp hm2 with hc | hc
          · subst hc
            rw [hf] at hf2
            cases hf2
            exact absurd hep2 hep
          · exact ⟨r2, hc, he2, c2, hf2, hep2, hv2⟩
    | none =>
      simp only [trackedRows, hf]
      rw [ih]
      constructor
      · rintro ⟨r2, hm2, rest⟩
        exact ⟨r2, by simp [hm2], rest⟩
      · rintro ⟨r2, hm2, he2, c2, hf2, hep2, hv2⟩
        rcases List.mem_cons.mp hm2 with hc | hc
        · subst hc
          rw [hf] at hf2
          cases hf2
        · exact ⟨r2, hc, he2, c2, hf2, hep2, hv2⟩

theorem mem_trackedArcs {ty : CompTy} {tok : Nat} {arcs : List Archetype} {p : Nat × CompVal} :
    p ∈ trackedArcs ty tok arcs ↔
      ∃ r ∈ allRowsArcs arcs, r.eid = p.1 ∧
        ∃ c, findCell ty r.cells = some c ∧ tok < c.epoch ∧ c.val = p.2 := by
  induction arcs with
  | nil => simp [trackedArcs, allRowsArcs]
  | cons a rest ih =>
    rw [trackedArcs]
    simp only [allRowsArcs, List.mem_append, List.mem_cons]
    rw [mem_trackedRows, ih]
    constructor
    · rintro (⟨r2, hm2, rest2⟩ | ⟨r2, hm2, rest2⟩)
      · exact ⟨r2, Or.inl hm2, rest2⟩
      · exact ⟨r2, Or.inr hm2, rest2⟩
    · rintro ⟨r2, hm2 | hm2, rest2⟩
      · exact Or.inl ⟨r2, hm2, rest2⟩
      · exact Or.inr ⟨r2, hm2, rest2⟩

theorem trackedRows_nil_of_le {ty : CompTy} {tok : Nat} {rs : List Row}
    (h : ∀ r ∈ rs, ∀ c ∈ r.cells, c.epoch ≤ tok) : trackedRows ty tok rs = [] := by
  induction rs with
  | nil => simp [trackedRows]
  | cons r0 rs ih =>
    have hrest : trackedRows ty tok rs = [] :=
      ih (fun r hm => h r (List.mem_cons_of_mem _ hm))
    cases hf : findCell ty r0.cells with
    | some c =>
      have hle : c.epoch ≤ tok :=
        h r0 (List.mem_cons_self _ _) c (findCell_some hf).1
      simp only [trackedRows, hf, if_neg (by omega : ¬tok < c.epoch)]
      exact hrest
    | none =>
      simp only [trackedRows, hf]
      exact hrest

theorem trackedArcs_nil_of_le {ty : CompTy} {tok : Nat} {arcs : List Archetype}
    (h : ∀ r ∈ allRowsArcs arcs, ∀ c ∈ r.cells, c.epoch ≤ tok) :
    trackedArcs ty tok arcs = [] := by
  induction arcs with
  | nil => simp [trackedArcs]
  | cons a rest ih =>
    rw [trackedArcs]
    rw [trackedRows_nil_of_le (fun r hm => h r (by simp [allRowsArcs, hm]))]
    rw [ih (fun r hm => h r (by simp [allRowsArcs, hm]))]
    rfl

theorem trackedArcs_append {ty : CompTy} {tok : Nat} {xs ys : List Archetype} :
    trackedArcs ty tok (xs ++ ys) = trackedArcs ty tok xs ++ trackedArcs ty tok ys := by
  induction xs with
  | nil => simp [trackedArcs]
  | cons a rest ih => simp [trackedArcs, ih]


theorem Action.size_pos (a : Action) : 1 ≤ a.size := by
  cases a <;> simp [Action.size]

theorem sizeActs_append {xs ys : List Action} :
    sizeActs (xs ++ ys) = sizeActs xs + sizeActs ys := by
  induction xs with
  | nil => simp [sizeActs]
  | cons a rest ih => simp [sizeActs, ih]; omega

theorem sizeActs_eq_zero {xs : List Action} (h : sizeActs xs = 0) : xs = [] := by
  cases xs with
  | nil => rfl
  | cons a rest =>
    have := Action.size_pos a
    simp [sizeActs] at h
    omega

theorem sizeActs_toList : ∀ (recs : ActList), sizeActs recs.toList = recs.sizeL
  | .nil => by simp [ActList.toList, sizeActs, ActList.sizeL]
  | .cons a t => by simp [ActList.toList, sizeActs, ActList.sizeL, sizeActs_toList t]

theorem applyAct_size {w : World} {a : Action} :
    sizeActs (applyAct w a).2 + 1 = a.size := by
  cases a <;> simp [applyAct, sizeActs, Action.size, sizeActs_toList]
  omega

theorem execLoopF_mono : ∀ (n m : Nat) (w : World) (dq : List Action),
    sizeActs dq ≤ n → sizeActs dq ≤ m → execLoopF n w dq = execLoopF m w dq := by
  intro n
  induction n with
  | zero =>
    intro m w dq hn _
    have : dq = [] := sizeActs_eq_zero (Nat.le_zero.mp hn)
    subst this
    cases m <;> rfl
  | succ n ih =>
    intro m w dq hn hm
    cases dq with
    | nil => cases m <;> rfl
    | cons a rest =>
      have hsz : 1 ≤ sizeActs (a :: rest) := by
        have := Action.size_pos a
        simp [sizeActs]
        omega
      cases m with
      | zero => omega
      | succ m2 =>
        rw [execLoopF, execLoopF]
        have hrec : sizeActs (rest ++ (applyAct w a).2) ≤ n := by
          rw [sizeActs_append]
          have := applyAct_size (w := w) (a := a)
          simp [sizeActs] at hn
          omega
        have hrec2 : sizeActs (rest ++ (applyAct w a).2) ≤ m2 := by
          rw [sizeActs_append]
          have := applyAct_size (w := w) (a := a)
          simp [sizeActs] at hm
          omega
        rw [ih m2 _ _ hrec hrec2]

theorem drainOnce_trace : ∀ (w : World) (p : List Action), (drainOnce w p).2.2 = p := by
  intro w p
  induction p generalizing w with
  | nil => rfl
  | cons a rest ih => simp [drainOnce, ih]

theorem drainOnce_size : ∀ (w : World) (p : List Action),
    sizeActs (drainOnce w p).2.1 + p.length = sizeActs p := by
  intro w p
  induction p generalizing w with
  | nil => simp [drainOnce, sizeActs]
  | cons a rest ih =>
    simp only [drainOnce, sizeActs, List.length_cons, sizeActs_append]
    have h1 := applyAct_size (w := w) (a := a)
    have h2 := ih (applyAct w a).1
    omega

theorem execLoopF_drain : ∀ (p s : List Action) (w : World) (n : Nat)
    (w1 : World) (sec tr : List Action),
    drainOnce w p = (w1, sec, tr) → sizeActs (p ++ s) ≤ n →
    execLoopF n w (p ++ s) =
      ((execLoopF (sizeActs (s ++ sec)) w1 (s ++ sec)).1,
       tr ++ (execLoopF (sizeActs (s ++ sec)) w1 (s ++ sec)).2) := by
  intro p
  induction p with
  | nil =>
    intro s w n w1 sec tr hdrain hn
    rw [drainOnce] at hdrain
    cases hdrain
    rw [List.append_nil]
    rw [List.nil_append] at hn ⊢
    rw [execLoopF_mono n (sizeActs s) w s hn le_rfl]
    rfl
  | cons a p2 ih =>
    intro s w n w1 sec tr hdrain hn
    simp only [drainOnce] at hdrain
    cases hdrain
    have hsz : 1 ≤ sizeActs (a :: p2) := by
      have := Action.size_pos a
      simp [sizeActs]
      omega
    have hn1 : 1 ≤ n := by
      rw [sizeActs_append] at hn
      omega
    obtain ⟨n2, rfl⟩ : ∃ n2, n = n2 + 1 := ⟨n - 1, by omega⟩
    rw [List.cons_append, execLoopF]
    have hrec : sizeActs ((p2 ++ s) ++ (applyAct w a).2) ≤ n2 := by
      rw [sizeActs_append, sizeActs_append]
      have := applyAct_size (w := w) (a := a)
      rw [sizeActs_append] at hn
      simp [sizeActs] at hn
      omega
    have hassoc : (p2 ++ s) ++ (applyAct w a).2 = p2 ++ (s ++ (applyAct w a).2) := by
      rw [List.append_assoc]
    rw [hassoc] at hrec
    have hdr2 : drainOnce (applyAct w a).1 p2 =
        ((drainOnce (applyAct w a).1 p2).1,
         (drainOnce (applyAct w a).1 p2).2.1,
         (drainOnce (applyAct w a).1 p2).2.2) := rfl
    have := ih (s ++ (applyAct w a).2) (applyAct w a).1 n2
      (drainOnce (applyAct w a).1 p2).1
      (drainOnce (applyAct w a).1 p2).2.1
      (drainOnce (applyAct w a).1 p2).2.2 hdr2 (by rw [← hassoc] at hrec ⊢; exact hrec)
    rw [hassoc]
    rw [this]
    have hassoc2 : (s ++ (applyAct w a).2) ++ (drainOnce (applyAct w a).1 p2).2.1 =
        s ++ ((applyAct w a).2 ++ (drainOnce (applyAct w a).1 p2).2.1) := by
      rw [List.append_assoc]
    rw [hassoc2]
    rfl

theorem execSpecF_mono : ∀ (n m : Nat) (w : World) (p : List Action),
    sizeActs p ≤ n → sizeActs p ≤ m → execSpecF n w p = execSpecF m w p := by
  intro n
  induction n with
  | zero =>
    intro m w p hn _
    have : p = [] := sizeActs_eq_zero (Nat.le_zero.mp hn)
    subst this
    cases m <;> rfl
  | succ n ih =>
    intro m w p hn hm
    cases p with
    | nil => cases m <;> rfl
    | cons a rest =>
      have hsz : 1 ≤ sizeActs (a :: rest) := by
        have := Action.size_pos a
        simp [sizeActs]
        omega
      cases m with
      | zero => omega
      | succ m2 =>
        simp only [execSpecF]
        have hsec := drainOnce_size w (a :: rest)
        have hlen : (a :: rest).length = rest.length + 1 := rfl
        have hrec : sizeActs (drainOnce w (a :: rest)).2.1 ≤ n := by omega
        have hrec2 : sizeActs (drainOnce w (a :: rest)).2.1 ≤ m2 := by omega
        rw [ih m2 _ _ hrec hrec2]

theorem execEquivAux : ∀ (n : Nat) (p : List Action) (w : World),
    sizeActs p ≤ n → execLoopF (sizeActs p) w p = execSpecF (sizeActs p) w p := by
  intro n
  induction n with
  | zero =>
    intro p w hn
    have : p = [] := sizeActs_eq_zero (Nat.le_zero.mp hn)
    subst this
    rfl
  | succ n ih =>
    intro p w hn
    cases p with
    | nil => rfl
    | cons a rest =>
      have hsz : 1 ≤ sizeActs (a :: rest) := by
        have := Action.size_pos a
        simp [sizeActs]
        omega
      obtain ⟨m, hm⟩ : ∃ m, sizeActs (a :: rest) = m + 1 :=
        ⟨sizeActs (a :: rest) - 1, by omega⟩
      have hdr : drainOnce w (a :: rest) =
          ((drainOnce w (a :: rest)).1,
           (drainOnce w (a :: rest)).2.1,
           (drainOnce w (a :: rest)).2.2) := rfl
      have hdrain := execLoopF_drain (a :: rest) [] w (sizeActs (a :: rest))
        (drainOnce w (a :: rest)).1
        (drainOnce w (a :: rest)).2.1
        (drainOnce w (a :: rest)).2.2 hdr (by rw [List.append_nil])
      rw [List.append_nil] at hdrain
      rw [List.nil_append] at hdrain
      have hsecsize := drainOnce_size w (a :: rest)
      have hsecle : sizeActs (drainOnce w (a :: rest)).2.1 ≤ n := by
        have hlen : (a :: rest).length = rest.length + 1 := rfl
        omega
      have hinner := ih (drainOnce w (a :: rest)).2.1 (drainOnce w (a :: rest)).1 hsecle
      rw [hdrain, hinner]
      rw [hm]
      simp only [execSpecF]
      have hmono := execSpecF_mono m (sizeActs (drainOnce w (a :: rest)).2.1)
        (drainOnce w (a :: rest)).1 (drainOnce w (a :: rest)).2.1
        (by
          have hlen : (a :: rest).length = rest.length + 1 := rfl
          omega) le_rfl
      rw [hmono]

theorem execLoop_trace_front (w : World) (p : List Action) :
    ∃ t2, (execLoop w p).2 = p ++ t2 := by
  have hdr : drainOnce w p = ((drainOnce w p).1, (drainOnce w p).2.1, (drainOnce w p).2.2) := rfl
  have hdrain := execLoopF_drain p [] w (sizeActs p)
    (drainOnce w p).1 (drainOnce w p).2.1 (drainOnce w p).2.2 hdr (by rw [List.append_nil])
  rw [List.append_nil] at hdrain
  rw [List.nil_append] at hdrain
  refine ⟨(execLoopF (sizeActs (drainOnce w p).2.1) (drainOnce w p).1 (drainOnce w p).2.1).2, ?_⟩
  rw [execLoop, hdrain]
  rw [drainOnce_trace]


theorem findRow_append {e : Nat} {rs ss : List Row} :
    findRow e (rs ++ ss) =
      match findRow e rs with
      | some r => some r
      | none => findRow e ss := by
  induction rs with
  | nil => simp [findRow]
  | cons r0 rs ih =>
    by_cases h0 : r0.eid = e
    · simp [findRow, h0]
    · simpa [findRow, h0] using ih

theorem getRowArcs_pushRow_fresh (sig : List CompTy) (row : Row) {arcs : List Archetype}
    (h : ∀ r ∈ allRowsArcs arcs, r.eid ≠ row.eid) :
    getRowArcs row.eid (pushRowArcs sig row arcs) = some row := by
  induction arcs with
  | nil => simp [pushRowArcs, getRowArcs, findRow]
  | cons a rest ih =>
    rw [pushRowArcs]
    by_cases hs : a.sig = sig
    · rw [if_pos hs]
      rw [getRowArcs, findRow_append]
      have hnone : findRow row.eid a.rows = none :=
        findRow_none_iff.mpr (fun r hm => h r (by simp [allRowsArcs, hm]))
      rw [hnone]
      simp [findRow]
    · rw [if_neg hs]
      rw [getRowArcs]
      have hnone : findRow row.eid a.rows = none :=
        findRow_none_iff.mpr (fun r hm => h r (by simp [allRowsArcs, hm]))
      rw [hnone]
      exact ih (fun r hm => h r (by simp [allRowsArcs, hm]))

theorem removeRowArcs_of_getRow {e : Nat} {arcs : List Archetype} {r : Row}
    (h : getRowArcs e arcs = some r) :
    ∃ arcs2, removeRowArcs e arcs = some (r, arcs2) := by
  have h2 := @getRowArcs_eq_removeRow_fst e arcs
  rw [h] at h2
  cases hx : removeRowArcs e arcs with
  | none => rw [hx] at h2; cases h2
  | some p =>
    obtain ⟨r2, arcs2⟩ := p
    rw [hx] at h2
    simp at h2
    subst h2
    exact ⟨arcs2, rfl⟩

theorem removeRowArcs_none_of_getRow {e : Nat} {arcs : List Archetype}
    (h : getRowArcs e arcs = none) : removeRowArcs e arcs = none := by
  have h2 := @getRowArcs_eq_removeRow_fst e arcs
  rw [h] at h2
  cases hx : removeRowArcs e arcs with
  | none => rfl
  | some p => rw [hx] at h2; cases h2

theorem removeRowArcs_sigs {e : Nat} {arcs arcs2 : List Archetype} {r : Row}
    (h : removeRowArcs e arcs = some (r, arcs2)) :
    arcs2.map Archetype.sig = arcs.map Archetype.sig := by
  induction arcs generalizing arcs2 with
  | nil => simp [removeRowArcs] at h
  | cons a rest ih =>
    rw [removeRowArcs] at h
    cases hf : findRowIdx e a.rows with
    | some p =>
      obtain ⟨r2, ri⟩ := p
      rw [hf] at h
      cases h
      simp
    | none =>
      rw [hf] at h
      cases hrm : removeRowArcs e rest with
      | none => rw [hrm] at h; cases h
      | some q =>
        obtain ⟨r2, rest2⟩ := q
        rw [hrm] at h
        cases h
        simp [ih hrm]

theorem dropTys_append {tys : List CompTy} {xs ys : List Cell} :
    dropTys tys (xs ++ ys) = dropTys tys xs ++ dropTys tys ys := by
  induction xs with
  | nil => simp [dropTys]
  | cons c0 xs ih =>
    by_cases h0 : c0.ty ∈ tys
    · simp [dropTys, h0, ih]
    · simp [dropTys, h0, ih]

theorem dropTys_of_none {ty : CompTy} {cs : List Cell}
    (h : findCell ty cs = none) : dropTys [ty] cs = cs := by
  induction cs with
  | nil => simp [dropTys]
  | cons c0 cs ih =>
    rw [findCell] at h
    by_cases h0 : c0.ty = ty
    · rw [if_pos h0] at h; cases h
    · rw [if_neg h0] at h
      have : c0.ty ∉ [ty] := by simp [h0]
      rw [dropTys, if_neg this, ih h]

theorem trackedModified_mem_iff (w : World) (ty : CompTy) (tok : Nat)
    (hnd : w.eidNodup) :
    ∀ e v, (e, v) ∈ (w.trackedModified ty tok).1 ↔
      ∃ c, w.cellOf e ty = some c ∧ tok < c.epoch ∧ c.val = v := by
  intro e v
  rw [World.trackedModified]
  simp only []
  rw [mem_trackedArcs]
  constructor
  · rintro ⟨r, hm, he, c, hf, hep, hv⟩
    refine ⟨c, ?_, hep, hv⟩
    have hg : w.getRow e = some r := getRowArcs_of_mem hnd hm he
    simp only [World.cellOf, hg]
    exact hf
  · rintro ⟨c, hcell, hep, hv⟩
    rw [World.cellOf] at hcell
    cases hg : w.getRow e with
    | none => rw [hg] at hcell; cases hcell
    | some r =>
      rw [hg] at hcell
      rw [World.getRow] at hg
      rcases getRowArcs_some hg with ⟨hm, he⟩
      exact ⟨r, hm, he, c, hcell, hep, hv⟩


/-- C1: the spec claims `FilterNotRelatesTo<R>(target)` never skips an
entity whose archetype lacks the relation's origin component and skips an
origin entity exactly when one of its origins targets `target`.  The code
does the opposite on both counts: `skip_archetype` (true = skip) skips
every archetype without the origin component, and `skip_item` skips
exactly the rows with no origin targeting `target`, so the term yields
precisely the origins of relation `R` pointing at `target`.  Evaluated at
target 7: a row in an archetype without the origin component is skipped
although the claim (and the type's own doc comment) says it is yielded,
and a row whose only origin targets 7 is yielded although the claim says
it is skipped. -/
theorem claim_c1_filter_not_relates_to_inverted :
    (FilterNotRelatesToModel.skipArchetype ⟨none⟩ = true
      ∧ FilterNotRelatesToModel.codeYields 7 ⟨none⟩ 0 = false
      ∧ FilterNotRelatesToModel.claimYields 7 ⟨none⟩ 0 = true)
    ∧ (FilterNotRelatesToModel.codeYields 7 ⟨some [⟨[⟨7⟩]⟩]⟩ 0 = true
      ∧ FilterNotRelatesToModel.claimYields 7 ⟨some [⟨[⟨7⟩]⟩]⟩ 0 = false) := by
  decide

/-- C5: `ActionEncoder::execute` executes the recorded actions
front-to-back in recording order (the trace starts with exactly the
recorded deque, in order), leaves the encoder empty when it returns, and
returns `true` iff at least one action was executed. -/
theorem claim_c5_execute_order_empties_returns :
    ∀ (w : World) (enc : List Action),
      (∃ t2, (executeEnc w enc).trace = enc ++ t2)
      ∧ (executeEnc w enc).encoder = []
      ∧ ((executeEnc w enc).ret = true ↔ (executeEnc w enc).trace ≠ []) := by
  intro w enc
  cases enc with
  | nil =>
    refine ⟨⟨[], rfl⟩, rfl, ?_⟩
    simp [executeEnc]
  | cons a rest =>
    have hne : (a :: rest).isEmpty = false := rfl
    rcases execLoop_trace_front w (a :: rest) with ⟨t2, ht⟩
    refine ⟨⟨t2, ?_⟩, ?_, ?_⟩
    · simp [executeEnc, hne, ht]
    · simp [executeEnc, hne]
    · simp [executeEnc, hne, ht]

/-- C6: the implemented single-deque loop (pop from the front, push
recorded actions to the back) is observationally equivalent to the
specified two-buffer scheme (drain the primary buffer collecting
intermediate actions into a secondary buffer, then append): both produce
the same final world and the same execution trace, so every action
recorded during execute runs in the same call, after all previously
pending actions, in its own recording order. -/
theorem claim_c6_execute_refines_two_buffer_scheme :
    ∀ (w : World) (p : List Action), execLoop w p = execSpec w p := by
  intro w p
  rw [execLoop, execSpec]
  exact execEquivAux (sizeActs p) p w le_rfl

/-- C4: executing a `Despawn` action for an already-dead entity through
`ActionEncoder::execute` is a no-op: `despawn_with_encoder` returns
`NoSuchEntity` (no panic), `execute` discards the error, the world is
unchanged (no entity's row or components change), and the remaining
recorded actions still execute exactly as they would have. -/
theorem claim_c4_despawn_dead_noop (w : World) (e : Nat) (post : List Action)
    (hdead : w.getRow e = none) :
    w.despawn e = .error .noSuchEntity
    ∧ applyAct w (.despawn e) = (w, [])
    ∧ execLoop w (Action.despawn e :: post)
        = ((execLoop w post).1, Action.despawn e :: (execLoop w post).2) := by
  have hrm : removeRowArcs e w.archetypes = none := by
    apply removeRowArcs_none_of_getRow
    rw [World.getRow] at hdead
    exact hdead
  have hdes : w.despawn e = .error .noSuchEntity := by
    rw [World.despawn, hrm]
  have happ : applyAct w (.despawn e) = (w, []) := by
    simp [applyAct, World.despawnD, hdes]
  refine ⟨hdes, happ, ?_⟩
  have hsz : sizeActs (Action.despawn e :: post) = sizeActs post + 1 := by
    simp [sizeActs, Action.size]
    omega
  rw [execLoop, hsz, execLoopF, happ]
  simp only [List.append_nil]
  rfl

/-- Witness for C4 at a concrete input: entity 5 is dead in the fresh
world; a despawn action for it executes as a no-op ahead of a spawn
action. -/
theorem claim_c4_witness :
    World.new.getRow 5 = none
    ∧ (World.new.despawn 5 = .error .noSuchEntity
       ∧ applyAct World.new (.despawn 5) = (World.new, [])
       ∧ execLoop World.new (Action.despawn 5 :: [Action.spawnA [CompVal.fooV]])
           = ((execLoop World.new [Action.spawnA [CompVal.fooV]]).1,
              Action.despawn 5 :: (execLoop World.new [Action.spawnA [CompVal.fooV]]).2)) :=
  ⟨by decide, claim_c4_despawn_dead_noop World.new 5 [Action.spawnA [CompVal.fooV]] (by decide)⟩

/-- C8: the deferred-allocation example: a scheduler with a system that
allocates an entity and records `insert(id, Foo)` and a system that
records `spawn((Foo,))`, run sequentially twice over a fresh world,
leaves exactly four `Foo` components in the world. -/
theorem claim_c8_deferred_allocation_four_foos :
    (runSequential (runSequential World.new [allocateSystem, spawnSystem])
        [allocateSystem, spawnSystem]).fooCount = 4 := by
  decide


/-- C2: iterating `Modified<&T>` with a tracking token yields an entity's
`T` component iff the entity's `T` cell carries a write epoch strictly
greater than the token's snapshot (the stored epoch is the epoch of the
latest write), and immediately repeating the query with the advanced
token (the world epoch at query time), with no writes in between, yields
no entities. -/
theorem claim_c2_tracked_modified_iff (w : World) (ty : CompTy) (token : Nat)
    (hnd : w.eidNodup) (hep : w.epochsLe) :
    (∀ e v, (e, v) ∈ (w.trackedModified ty token).1 ↔
        ∃ c, w.cellOf e ty = some c ∧ token < c.epoch ∧ c.val = v)
    ∧ (w.trackedModified ty ((w.trackedModified ty token).2)).1 = [] := by
  refine ⟨trackedModified_mem_iff w ty token hnd, ?_⟩
  apply trackedArcs_nil_of_le
  intro r hm c hc
  exact hep r hm c hc

/-- Witness for C2 at a concrete input: the `version_test` world after
the first spawn, with the token snapshotted before it. -/
theorem claim_c2_witness :
    wWitness.eidNodup ∧ wWitness.epochsLe
    ∧ ((∀ e v, (e, v) ∈ (wWitness.trackedModified CompTy.u32T 0).1 ↔
          ∃ c, wWitness.cellOf e CompTy.u32T = some c ∧ 0 < c.epoch ∧ c.val = v)
       ∧ (wWitness.trackedModified CompTy.u32T
            ((wWitness.trackedModified CompTy.u32T 0).2)).1 = []) := by
  have hnd : wWitness.eidNodup := by
    unfold World.eidNodup eidNodupA
    decide
  have hep : wWitness.epochsLe := by
    unfold World.epochsLe
    decide
  exact ⟨hnd, hep, claim_c2_tracked_modified_iff wWitness CompTy.u32T 0 hnd hep⟩

/-- C9: `Entity::pin::<T>` panics iff the entity lacks component `T` at
the time of the call; on success it leaves the world completely
unchanged and yields a handle to the same entity; and it does not
prevent a later removal of `T` (after the pin, `remove::<T>` still
succeeds and the component is gone). -/
theorem claim_c9_pin_asserts_only (w : World) (e : Nat) (ty : CompTy)
    (hnd : w.eidNodup) :
    (pinEntity w e ty = none ↔ w.hasComponentB e ty = false)
    ∧ (∀ w2 e2, pinEntity w e ty = some (w2, e2) → w2 = w ∧ e2 = e)
    ∧ (w.hasComponentB e ty = true →
        ∃ c w2, w.remove e ty = .ok (c, w2) ∧ w2.hasComponentB e ty = false) := by
  refine ⟨?_, ?_, ?_⟩
  · by_cases h : w.hasComponentB e ty
    · simp [pinEntity, h]
    · simp [pinEntity, h]
  · intro w2 e2 hp
    by_cases h : w.hasComponentB e ty
    · simp [pinEntity, h] at hp
      exact ⟨hp.1.symm, hp.2.symm⟩
    · simp [pinEntity, h] at hp
  · intro h
    cases hg : w.getRow e with
    | none =>
      simp only [World.hasComponentB, hg] at h
      cases h
    | some r =>
      simp only [World.hasComponentB, hg] at h
      cases hc : findCell ty r.cells with
      | none => rw [hc] at h; simp at h
      | some c =>
        have hgr : getRowArcs e w.archetypes = some r := by
          rw [World.getRow] at hg
          exact hg
        rcases removeRowArcs_of_getRow hgr with ⟨arcs2, hrm⟩
        have hmig := migrate_facts (sigOf (dropTys [ty] r.cells))
          (dropTys [ty] r.cells) hnd hrm
        have hrem2 : w.remove e ty = .ok (c.val,
            { epoch := w.epoch + 1
              archetypes := pushRowArcs (sigOf (dropTys [ty] r.cells))
                ⟨e, dropTys [ty] r.cells⟩ arcs2
              reserved := w.reserved
              nextId := w.nextId }) := by
          simp only [World.remove, hrm, hc]
        refine ⟨c.val, _, hrem2, ?_⟩
        rw [World.hasComponentB, World.getRow]
        simp only [hmig.1]
        rw [findCell_dropTys_mem (by simp)]
        rfl

/-- Witness for C9 at a concrete input: entity 0 of the witness world has
`Str`; the pin succeeds, the world is untouched, and the later removal of
`Str` still succeeds. -/
theorem claim_c9_witness :
    wWitness.eidNodup
    ∧ ((pinEntity wWitness 0 CompTy.strT = none ↔
          wWitness.hasComponentB 0 CompTy.strT = false)
       ∧ (∀ w2 e2, pinEntity wWitness 0 CompTy.strT = some (w2, e2) →
            w2 = wWitness ∧ e2 = 0)
       ∧ (wWitness.hasComponentB 0 CompTy.strT = true →
            ∃ c w2, wWitness.remove 0 CompTy.strT = .ok (c, w2)
              ∧ w2.hasComponentB 0 CompTy.strT = false)) := by
  have hnd : wWitness.eidNodup := by
    unfold World.eidNodup eidNodupA
    decide
  exact ⟨hnd, claim_c9_pin_asserts_only wWitness 0 CompTy.strT hnd⟩


/-- C7: for a live entity, `drop_bundle<B>` succeeds even when the entity
lacks some of the bundle's component types: every type of the bundle is
absent afterwards (`has_component` reports false and a query on it
returns `MissingComponents`), absent types are ignored, components
outside the bundle keep their cells, and no other entity changes. -/
theorem claim_c7_drop_bundle_ignores_absent (w : World) (e : Nat) (tys : List CompTy) (r : Row)
    (hnd : w.eidNodup) (hrow : w.getRow e = some r) :
    ∃ w2, w.dropBundle e tys = .ok w2
      ∧ (∀ ty ∈ tys, w2.hasComponentE e ty = .ok false)
      ∧ (∀ ty ∈ tys, w2.queryOne e [ty] = .error .missingComponents)
      ∧ (∀ ty, ty ∉ tys → w2.getVal e ty = w.getVal e ty)
      ∧ (∀ e2, e2 ≠ e → w2.getRow e2 = w.getRow e2) := by
  have hgr : getRowArcs e w.archetypes = some r := hrow
  rcases removeRowArcs_of_getRow hgr with ⟨arcs2, hrm⟩
  have hmig := migrate_facts (sigOf (dropTys tys r.cells))
    (dropTys tys r.cells) hnd hrm
  have hdrop : w.dropBundle e tys = .ok
      { epoch := w.epoch + 1
        archetypes := pushRowArcs (sigOf (dropTys tys r.cells))
          ⟨e, dropTys tys r.cells⟩ arcs2
        reserved := w.reserved
        nextId := w.nextId } := by
    simp only [World.dropBundle, hrm]
  refine ⟨_, hdrop, ?_, ?_, ?_, ?_⟩
  · intro ty hty
    rw [World.hasComponentE, World.getRow]
    simp only [hmig.1]
    rw [findCell_dropTys_mem hty]
    rfl
  · intro ty hty
    rw [World.queryOne, World.getRow]
    simp only [hmig.1, collectVals, findCell_dropTys_mem hty]
  · intro ty hty
    rw [World.getVal, World.getVal, World.cellOf, World.cellOf, World.getRow, World.getRow]
    simp only [hmig.1, hgr, findCell_dropTys_not_mem hty]
  · intro e2 hne
    rw [World.getRow, World.getRow]
    exact hmig.2.1 e2 hne

/-- C3: spawn/read round-trip and insert/remove round-trip.  After
`spawn(b)` every component read from the spawned entity yields the value
supplied in the bundle; and `insert(e, x)` followed by `remove::<T>(e)`
returns exactly `x` while every component of `e` other than `T` keeps its
value. -/
theorem claim_c3_spawn_get_insert_remove_roundtrip :
    (∀ (w : World) (b : List CompVal), (b.map CompVal.ty).Nodup →
      (∀ r0 ∈ w.allRows, r0.eid < w.nextId) →
      ∀ v ∈ b, ((w.spawn b).1).getVal (w.spawn b).2 v.ty = some v)
    ∧ (∀ (w : World) (e : Nat) (x : CompVal) (r : Row),
        w.eidNodup → w.getRow e = some r →
        ∃ w1 w2, w.tryInsert e x = .ok w1 ∧ w1.remove e x.ty = .ok (x, w2)
          ∧ ∀ ty2, ty2 ≠ x.ty → w2.getVal e ty2 = w.getVal e ty2) := by
  constructor
  · intro w b hbnd hbound v hv
    have hfresh : ∀ r0 ∈ allRowsArcs w.archetypes,
        r0.eid ≠ (⟨w.nextId, b.map (fun x => (⟨x.ty, x, w.epoch + 1⟩ : Cell))⟩ : Row).eid := by
      intro r0 hm
      have := hbound r0 hm
      simp only []
      omega
    have hpush := getRowArcs_pushRow_fresh
      (sigOf ((⟨w.nextId, b.map (fun x => (⟨x.ty, x, w.epoch + 1⟩ : Cell))⟩ : Row).cells))
      ⟨w.nextId, b.map (fun x => (⟨x.ty, x, w.epoch + 1⟩ : Cell))⟩ hfresh
    rw [World.getVal, World.cellOf, World.getRow, World.spawn]
    simp only at hpush ⊢
    rw [hpush]
    simp only [findCell_spawn_cells hbnd hv]
    rfl
  · intro w e x r hnd hrow
    have hgr : getRowArcs e w.archetypes = some r := hrow
    have he : r.eid = e := (getRowArcs_some hgr).2
    rcases removeRowArcs_of_getRow hgr with ⟨arcs2, hrm⟩
    cases hc : findCell x.ty r.cells with
    | some c0 =>
      have hins : w.tryInsert e x = .ok
          { epoch := w.epoch + 1
            archetypes := updateArcs e (setCellVal x.ty x (w.epoch + 1)) w.archetypes
            reserved := w.reserved
            nextId := w.nextId } := by
        simp only [World.tryInsert, hrm, hc]
      have hgr1 : getRowArcs e (updateArcs e (setCellVal x.ty x (w.epoch + 1)) w.archetypes)
          = some ⟨e, setCellVal x.ty x (w.epoch + 1) r.cells⟩ := by
        rw [getRowArcs_updateArcs_self, hgr]
        simp [he]
      have hnd1 : eidNodupA (updateArcs e (setCellVal x.ty x (w.epoch + 1)) w.archetypes) := by
        unfold eidNodupA
        rw [eids_updateArcs]
        exact hnd
      rcases removeRowArcs_of_getRow hgr1 with ⟨arcs3, hrm3⟩
      have hfc1 : findCell x.ty (setCellVal x.ty x (w.epoch + 1) r.cells)
          = some ⟨x.ty, x, w.epoch + 1⟩ := findCell_setCellVal_self hc
      have hmig := migrate_facts
        (sigOf (dropTys [x.ty] (setCellVal x.ty x (w.epoch + 1) r.cells)))
        (dropTys [x.ty] (setCellVal x.ty x (w.epoch + 1) r.cells)) hnd1 hrm3
      have hrem : ({ epoch := w.epoch + 1
                     archetypes := updateArcs e (setCellVal x.ty x (w.epoch + 1)) w.archetypes
                     reserved := w.reserved
                     nextId := w.nextId } : World).remove e x.ty
          = .ok (x, { epoch := w.epoch + 1 + 1
                      archetypes := pushRowArcs
                        (sigOf (dropTys [x.ty] (setCellVal x.ty x (w.epoch + 1) r.cells)))
                        ⟨e, dropTys [x.ty] (setCellVal x.ty x (w.epoch + 1) r.cells)⟩ arcs3
                      reserved := w.reserved
                      nextId := w.nextId }) := by
        simp only [World.remove, hrm3, hfc1]
      refine ⟨_, _, hins, hrem, ?_⟩
      intro ty2 hty2
      rw [World.getVal, World.getVal, World.cellOf, World.cellOf,
        World.getRow, World.getRow]
      simp only [hmig.1, hgr]
      rw [findCell_dropTys_not_mem (by simp [hty2]),
        findCell_setCellVal_other hty2]
    | none =>
      have hins : w.tryInsert e x = .ok
          { epoch := w.epoch + 1
            archetypes := pushRowArcs (sigOf (r.cells ++ [⟨x.ty, x, w.epoch + 1⟩]))
              ⟨e, r.cells ++ [⟨x.ty, x, w.epoch + 1⟩]⟩ arcs2
            reserved := w.reserved
            nextId := w.nextId } := by
        simp only [World.tryInsert, hrm, hc]
      have hmig1 := migrate_facts (sigOf (r.cells ++ [⟨x.ty, x, w.epoch + 1⟩]))
        (r.cells ++ [⟨x.ty, x, w.epoch + 1⟩]) hnd hrm
      rcases removeRowArcs_of_getRow hmig1.1 with ⟨arcs3, hrm3⟩
      have hfc1 : findCell x.ty (r.cells ++ [⟨x.ty, x, w.epoch + 1⟩])
          = some ⟨x.ty, x, w.epoch + 1⟩ := by
        rw [findCell_append, hc]
        simp [findCell]
      have hcells : dropTys [x.ty] (r.cells ++ [⟨x.ty, x, w.epoch + 1⟩]) = r.cells := by
        rw [dropTys_append, dropTys_of_none hc]
        simp [dropTys]
      have hmig2 := migrate_facts
        (sigOf (dropTys [x.ty] (r.cells ++ [⟨x.ty, x, w.epoch + 1⟩])))
        (dropTys [x.ty] (r.cells ++ [⟨x.ty, x, w.epoch + 1⟩])) hmig1.2.2 hrm3
      have hrem : ({ epoch := w.epoch + 1
                     archetypes := pushRowArcs (sigOf (r.cells ++ [⟨x.ty, x, w.epoch + 1⟩]))
                       ⟨e, r.cells ++ [⟨x.ty, x, w.epoch + 1⟩]⟩ arcs2
                     reserved := w.reserved
                     nextId := w.nextId } : World).remove e x.ty
          = .ok (x, { epoch := w.epoch + 1 + 1
                      archetypes := pushRowArcs
                        (sigOf (dropTys [x.ty] (r.cells ++ [⟨x.ty, x, w.epoch + 1⟩])))
                        ⟨e, dropTys [x.ty] (r.cells ++ [⟨x.ty, x, w.epoch + 1⟩])⟩ arcs3
                      reserved := w.reserved
                      nextId := w.nextId }) := by
        simp only [World.remove, hrm3, hfc1]
      refine ⟨_, _, hins, hrem, ?_⟩
      intro ty2 hty2
      rw [World.getVal, World.getVal, World.cellOf, World.cellOf,
        World.getRow, World.getRow]
      simp only [hmig2.1, hgr]
      rw [hcells]


/-- Witness for C7 at a concrete input: the world of the
`world_remove_bundle` test; dropping the bundle `(Str, Bool)` from an
entity that has only `(U32, Str)` succeeds. -/
theorem claim_c7_witness :
    wWitness.eidNodup
    ∧ wWitness.getRow 0 = some ⟨0, [⟨CompTy.u32T, CompVal.u32V 42, 1⟩,
        ⟨CompTy.strT, CompVal.strV "qwe", 1⟩]⟩
    ∧ (∃ w2, wWitness.dropBundle 0 [CompTy.strT, CompTy.boolT] = .ok w2
        ∧ (∀ ty ∈ [CompTy.strT, CompTy.boolT], w2.hasComponentE 0 ty = .ok false)
        ∧ (∀ ty ∈ [CompTy.strT, CompTy.boolT],
            w2.queryOne 0 [ty] = .error .missingComponents)
        ∧ (∀ ty, ty ∉ [CompTy.strT, CompTy.boolT] → w2.getVal 0 ty = wWitness.getVal 0 ty)
        ∧ (∀ e2, e2 ≠ 0 → w2.getRow e2 = wWitness.getRow e2)) := by
  have hnd : wWitness.eidNodup := by
    unfold World.eidNodup eidNodupA
    decide
  have hrow : wWitness.getRow 0 = some ⟨0, [⟨CompTy.u32T, CompVal.u32V 42, 1⟩,
      ⟨CompTy.strT, CompVal.strV "qwe", 1⟩]⟩ := by decide
  exact ⟨hnd, hrow,
    claim_c7_drop_bundle_ignores_absent wWitness 0 [CompTy.strT, CompTy.boolT] _ hnd hrow⟩

/-- Witness for C3 at concrete inputs: spawning `(U32(42), Str("qwe"))`
into the fresh world and reading `Str` back; inserting `Bool(true)` into
the witness world's entity 0 and removing it again. -/
theorem claim_c3_witness :
    ((([CompVal.u32V 42, CompVal.strV "qwe"].map CompVal.ty).Nodup)
     ∧ (∀ r0 ∈ World.new.allRows, r0.eid < World.new.nextId)
     ∧ ((World.new.spawn [CompVal.u32V 42, CompVal.strV "qwe"]).1).getVal
         (World.new.spawn [CompVal.u32V 42, CompVal.strV "qwe"]).2 CompTy.strT
         = some (CompVal.strV "qwe"))
    ∧ (wWitness.eidNodup
       ∧ wWitness.getRow 0 = some ⟨0, [⟨CompTy.u32T, CompVal.u32V 42, 1⟩,
           ⟨CompTy.strT, CompVal.strV "qwe", 1⟩]⟩
       ∧ ∃ w1 w2, wWitness.tryInsert 0 (CompVal.boolV true) = .ok w1
           ∧ w1.remove 0 CompTy.boolT = .ok (CompVal.boolV true, w2)
           ∧ ∀ ty2, ty2 ≠ CompTy.boolT →
               w2.getVal 0 ty2 = wWitness.getVal 0 ty2) := by
  have h1 : ([CompVal.u32V 42, CompVal.strV "qwe"].map CompVal.ty).Nodup := by decide
  have h2 : ∀ r0 ∈ World.new.allRows, r0.eid < World.new.nextId := by decide
  have h3 : wWitness.eidNodup := by
    unfold World.eidNodup eidNodupA
    decide
  have h4 : wWitness.getRow 0 = some ⟨0, [⟨CompTy.u32T, CompVal.u32V 42, 1⟩,
      ⟨CompTy.strT, CompVal.strV "qwe", 1⟩]⟩ := by decide
  refine ⟨⟨h1, h2, ?_⟩, h3, h4, ?_⟩
  · exact claim_c3_spawn_get_insert_remove_roundtrip.1 World.new
      [CompVal.u32V 42, CompVal.strV "qwe"] h1 h2 (CompVal.strV "qwe") (by decide)
  · exact claim_c3_spawn_get_insert_remove_roundtrip.2 wWitness 0 (CompVal.boolV true)
      _ h3 h4

/-- C10: when `try_insert` migrates an entity to a different archetype,
the write epochs (and values) of the retained components are carried over
unchanged; the destination archetype, being new, is created at the end of
the archetype list, so a tracked `Modified` query visits the migrated
entity in the position of its new archetype (after the rows of all
pre-existing archetypes); other entities are untouched; and afterwards
the tracked query still yields exactly the entities whose cell epoch
exceeds the token. -/
theorem claim_c10_insert_migration_carries_epochs (w : World) (e : Nat) (v : CompVal)
    (r : Row) (hnd : w.eidNodup) (hrow : w.getRow e = some r)
    (habs : findCell v.ty r.cells = none)
    (hfresh : ∀ a ∈ w.archetypes, a.sig ≠ sigOf (r.cells ++ [⟨v.ty, v, w.epoch + 1⟩])) :
    ∃ w2 arcs, removeRowArcs e w.archetypes = some (r, arcs)
      ∧ w.tryInsert e v = .ok w2
      ∧ w2.archetypes = arcs ++ [⟨sigOf (r.cells ++ [⟨v.ty, v, w.epoch + 1⟩]),
          [⟨e, r.cells ++ [⟨v.ty, v, w.epoch + 1⟩]⟩]⟩]
      ∧ (∀ ty2, ty2 ≠ v.ty → w2.cellOf e ty2 = findCell ty2 r.cells)
      ∧ (∀ e2, e2 ≠ e → w2.getRow e2 = w.getRow e2)
      ∧ w2.eidNodup
      ∧ (∀ tyq tok, (w2.trackedModified tyq tok).1 =
          trackedArcs tyq tok arcs
            ++ trackedRows tyq tok [⟨e, r.cells ++ [⟨v.ty, v, w.epoch + 1⟩]⟩])
      ∧ (∀ tyq tok e2 v2, (e2, v2) ∈ (w2.trackedModified tyq tok).1 ↔
          ∃ c, w2.cellOf e2 tyq = some c ∧ tok < c.epoch ∧ c.val = v2) := by
  have hgr : getRowArcs e w.archetypes = some r := hrow
  rcases removeRowArcs_of_getRow hgr with ⟨arcs2, hrm⟩
  have hmig := migrate_facts (sigOf (r.cells ++ [⟨v.ty, v, w.epoch + 1⟩]))
    (r.cells ++ [⟨v.ty, v, w.epoch + 1⟩]) hnd hrm
  have hins : w.tryInsert e v = .ok
      { epoch := w.epoch + 1
        archetypes := pushRowArcs (sigOf (r.cells ++ [⟨v.ty, v, w.epoch + 1⟩]))
          ⟨e, r.cells ++ [⟨v.ty, v, w.epoch + 1⟩]⟩ arcs2
        reserved := w.reserved
        nextId := w.nextId } := by
    simp only [World.tryInsert, hrm, habs]
  have hfresh2 : ∀ a ∈ arcs2, a.sig ≠ sigOf (r.cells ++ [⟨v.ty, v, w.epoch + 1⟩]) := by
    intro a ha
    have hmem : a.sig ∈ arcs2.map Archetype.sig := List.mem_map_of_mem _ ha
    rw [removeRowArcs_sigs hrm] at hmem
    rcases List.mem_map.mp hmem with ⟨a2, ha2, hsig⟩
    rw [← hsig]
    exact hfresh a2 ha2
  have hpush := pushRowArcs_fresh (sigOf (r.cells ++ [⟨v.ty, v, w.epoch + 1⟩]))
    ⟨e, r.cells ++ [⟨v.ty, v, w.epoch + 1⟩]⟩ hfresh2
  refine ⟨_, arcs2, hrm, hins, hpush, ?_, ?_, hmig.2.2, ?_, ?_⟩
  · intro ty2 hty2
    rw [World.cellOf, World.getRow]
    simp only [hmig.1]
    cases hfind : findCell ty2 r.cells with
    | some c => simp [findCell_append, hfind]
    | none => simp [findCell_append, hfind, findCell, Ne.symm hty2]
  · intro e2 hne
    rw [World.getRow, World.getRow]
    exact hmig.2.1 e2 hne
  · intro tyq tok
    rw [World.trackedModified]
    simp only [hpush, trackedArcs_append]
    simp [trackedArcs]
  · intro tyq tok e2 v2
    exact trackedModified_mem_iff
      { epoch := w.epoch + 1
        archetypes := pushRowArcs (sigOf (r.cells ++ [⟨v.ty, v, w.epoch + 1⟩]))
          ⟨e, r.cells ++ [⟨v.ty, v, w.epoch + 1⟩]⟩ arcs2
        reserved := w.reserved
        nextId := w.nextId } tyq tok hmig.2.2 e2 v2

/-- Witness for C10 at a concrete input: the `version_insert_test` world
right before `try_insert(&e1, Bool(true))`; the insert migrates entity 0
to a fresh archetype. -/
theorem claim_c10_witness :
    wInsertTest.eidNodup
    ∧ wInsertTest.getRow 0 = some rInsertTest
    ∧ findCell (CompVal.boolV true).ty rInsertTest.cells = none
    ∧ (∀ a ∈ wInsertTest.archetypes,
        a.sig ≠ sigOf (rInsertTest.cells
          ++ [⟨(CompVal.boolV true).ty, CompVal.boolV true, wInsertTest.epoch + 1⟩]))
    ∧ (∃ w2 arcs, removeRowArcs 0 wInsertTest.archetypes = some (rInsertTest, arcs)
        ∧ wInsertTest.tryInsert 0 (CompVal.boolV true) = .ok w2
        ∧ w2.archetypes = arcs ++ [⟨sigOf (rInsertTest.cells
            ++ [⟨(CompVal.boolV true).ty, CompVal.boolV true, wInsertTest.epoch + 1⟩]),
            [⟨0, rInsertTest.cells
              ++ [⟨(CompVal.boolV true).ty, CompVal.boolV true, wInsertTest.epoch + 1⟩]⟩]⟩]
        ∧ (∀ ty2, ty2 ≠ (CompVal.boolV true).ty →
            w2.cellOf 0 ty2 = findCell ty2 rInsertTest.cells)
        ∧ (∀ e2, e2 ≠ 0 → w2.getRow e2 = wInsertTest.getRow e2)
        ∧ w2.eidNodup
        ∧ (∀ tyq tok, (w2.trackedModified tyq tok).1 =
            trackedArcs tyq tok arcs
              ++ trackedRows tyq tok [⟨0, rInsertTest.cells
                ++ [⟨(CompVal.boolV true).ty, CompVal.boolV true, wInsertTest.epoch + 1⟩]⟩])
        ∧ (∀ tyq tok e2 v2, (e2, v2) ∈ (w2.trackedModified tyq tok).1 ↔
            ∃ c, w2.cellOf e2 tyq = some c ∧ tok < c.epoch ∧ c.val = v2)) := by
  have h1 : wInsertTest.eidNodup := by
    unfold World.eidNodup eidNodupA
    decide
  have h2 : wInsertTest.getRow 0 = some rInsertTest := by decide
  have h3 : findCell (CompVal.boolV true).ty rInsertTest.cells = none := by decide
  have h4 : ∀ a ∈ wInsertTest.archetypes,
      a.sig ≠ sigOf (rInsertTest.cells
        ++ [⟨(CompVal.boolV true).ty, CompVal.boolV true, wInsertTest.epoch + 1⟩]) := by
    decide
  exact ⟨h1, h2, h3, h4,
    claim_c10_insert_migration_carries_epochs wInsertTest 0 (CompVal.boolV true)
      rInsertTest h1 h2 h3 h4⟩

end Edict
